import Mathlib

/-!
Shallow embedding of the model-selection strategy layer
(`my_model_selectors.py`) and the recognizer (`my_recognizer.py`) of the
AIND-Recognizer repository.  The external HMM trainer
(`hmmlearn.GaussianHMM(...).fit`) is modelled as an abstract function from
(seed, state count, observations, lengths) to an optional fitted model;
a fitted model exposes its state count, its feature dimensionality and a
fallible log-likelihood `score` operation.  Floating-point log-likelihoods
are modelled as rationals extended with the two infinities the source uses
(`float('inf')` and `float('-inf')`).
-/

/-- An observation row: one fixed-dimension feature vector. -/
abbrev Obs : Type := List ℚ

/-- A fitted Gaussian HMM as the selectors see it: its state count
(`n_components`), its feature dimensionality (`n_features`) and a
log-likelihood `score` operation that may fail (`none` models a raised
exception). -/
structure HModel where
  n_components : ℕ
  n_features : ℕ
  score : List Obs → List ℕ → Option ℚ

/-- A trainer already specialised to one seed: `tr num_states X lengths`
models `ModelSelector.base_model`, i.e.
`GaussianHMM(n_components=num_states, random_state=seed, ...).fit(X, lengths)`
wrapped in the method's `try/except`, which returns `None` on any failure. -/
abbrev STrainer : Type := ℕ → List Obs → List ℕ → Option HModel

/-- The external trainer: seed, state count, observations, segment lengths →
optional fitted model (`none` models `base_model` catching the failure). -/
abbrev Trainer : Type := ℕ → ℕ → List Obs → List ℕ → Option HModel

/-- The state of a `ModelSelector` as set up by `ModelSelector.__init__`:
`words` is `all_word_sequences`, `hwords` is `all_word_Xlengths`,
`sequences = all_word_sequences[this_word]`, and `(X, lengths) =
all_word_Xlengths[this_word]`, the focal word's full concatenated training
data.  Python dicts iterate in insertion order, so both dicts are modelled
as association lists. -/
structure Selector where
  words : List (String × List (List Obs))
  hwords : List (String × (List Obs × List ℕ))
  sequences : List (List Obs)
  X : List Obs
  lengths : List ℕ
  this_word : String
  n_constant : ℕ
  min_n_components : ℕ
  max_n_components : ℕ
  random_state : ℕ

/-- Python floats as the selectors use them: rationals extended with
`float('-inf')` and `float('inf')`. -/
inductive XF where
  | negInf : XF
  | fin (q : ℚ) : XF
  | posInf : XF
deriving DecidableEq

/-- Strict `<` on extended values, as a boolean (Python's `<` on floats). -/
def XF.blt : XF → XF → Bool
  | .negInf, .negInf => false
  | .negInf, _ => true
  | .fin _, .negInf => false
  | .fin a, .fin b => decide (a < b)
  | .fin _, .posInf => true
  | .posInf, _ => false

/-- Non-strict `≤` on extended values, as a boolean. -/
def XF.ble : XF → XF → Bool
  | .negInf, _ => true
  | _, .posInf => true
  | _, .negInf => false
  | .posInf, _ => false
  | .fin a, .fin b => decide (a ≤ b)

/-- Strict `>` on extended values (Python's `>` on floats). -/
def XF.bgt (a b : XF) : Bool := XF.blt b a

/-- The best-so-far accumulation the selector loops perform over the list of
successfully scored candidates: keep the incumbent `(best_model, best_score)`
and replace it whenever a candidate's score is strictly `better`. -/
def pickAcc {α : Type} (better : XF → XF → Bool) (cs : List (α × XF))
    (acc : Option α × XF) : Option α × XF :=
  cs.foldl (fun a c => if better c.2 a.2 then (some c.1, c.2) else a) acc

/-- The search loop as written in the source: for each state count in the
range, evaluate the candidate (`eval i = none` models an iteration whose
body raised and was skipped by `except ...: continue`), and update the
incumbent when the candidate's score is strictly `better` than the best
seen so far. -/
def searchLoop {α : Type} (eval : ℕ → Option (α × XF)) (better : XF → XF → Bool)
    (init : XF) (l : List ℕ) : Option α × XF :=
  l.foldl (fun acc i =>
    match eval i with
    | none => acc
    | some c => if better c.2 acc.2 then (some c.1, c.2) else acc) (none, init)

/-- Python's `range(a, b + 1)`, the inclusive candidate range
`[min_n_components, max_n_components]`. -/
def rangeList (a b : ℕ) : List ℕ := List.range' a (b + 1 - a)

/-- One iteration of `SelectorBIC.select`'s loop body: fit `num_states = i`,
score the fitted model on the focal word's own training data, and compute
`BIC = -2*logL + p*logN` with `N = len(self.X)` and
`p = i**2 + 2*i*model.n_features - 1`.  `none` models an iteration that
raised (fit returned `None` so `.score` raised, or `.score` itself raised)
and was skipped by the `except Exception` clause.  `logf` models `np.log`
on natural numbers. -/
def bicEval (sel : Selector) (tr : STrainer) (logf : ℕ → ℚ) (i : ℕ) :
    Option (HModel × XF) :=
  match tr i sel.X sel.lengths with
  | none => none
  | some model =>
    match model.score sel.X sel.lengths with
    | none => none
    | some logL =>
      let p : ℚ := (i : ℚ) ^ 2 + 2 * (i : ℚ) * (model.n_features : ℚ) - 1
      some (model, XF.fin (-2 * logL + p * logf sel.X.length))

/-- `SelectorBIC.select` with the seed already applied to the trainer:
search the range tracking the lowest BIC (initial incumbent
`lowest_BIC = float('inf')`, no model); if a best model was found return
it, else fall back to `base_model(n_constant)`. -/
def bicSelectCore (sel : Selector) (tr : STrainer) (logf : ℕ → ℚ) : Option HModel :=
  match (searchLoop (bicEval sel tr logf) XF.blt XF.posInf
      (rangeList sel.min_n_components sel.max_n_components)).1 with
  | some m => some m
  | none => tr sel.n_constant sel.X sel.lengths

/-- `SelectorBIC.select`: every fit goes through `base_model`, which always
passes `self.random_state` to the trainer. -/
def bicSelect (sel : Selector) (ftr : Trainer) (logf : ℕ → ℚ) : Option HModel :=
  bicSelectCore sel (ftr sel.random_state) logf

/-- The successfully fitted and scored BIC candidates, in search order,
paired with their computed BIC criterion. -/
def bicCandidates (sel : Selector) (ftr : Trainer) (logf : ℕ → ℚ) :
    List (HModel × XF) :=
  (rangeList sel.min_n_components sel.max_n_components).filterMap
    (bicEval sel (ftr sel.random_state) logf)

/-- The `(X, lengths)` pairs of every word other than the focal word, in
`self.hwords` iteration order (`for word in self.hwords: if word != self.this_word`). -/
def dicOthers (sel : Selector) : List (List Obs × List ℕ) :=
  (sel.hwords.filter (fun p => p.1 ≠ sel.this_word)).map Prod.snd

/-- The inner loop of `SelectorDIC.select` that builds `logLs_but_i`: score
each other word's `(X, lengths)` under the candidate model, appending the
log-likelihoods in order; any scoring failure raises out of the whole
candidate body, which `none` models. -/
def scoreOthers (m : HModel) : List (List Obs × List ℕ) → Option (List ℚ)
  | [] => some []
  | q :: qs =>
    match m.score q.1 q.2 with
    | none => none
    | some l =>
      match scoreOthers m qs with
      | none => none
      | some ls => some (l :: ls)

/-- One iteration of `SelectorDIC.select`'s loop body: fit `num_states = i`,
score on the focal word's own data, score every other word's full training
data under the same model, and compute
`DIC = logL - sum(logLs_but_i)/(M - 1)` with `M = len(self.words)`.
A failure anywhere in the body (including the `ZeroDivisionError` when
`M = 1`) is caught by the `except Exception` clause and skips the
candidate, which `none` models. -/
def dicEval (sel : Selector) (tr : STrainer) (i : ℕ) : Option (HModel × XF) :=
  match tr i sel.X sel.lengths with
  | none => none
  | some model =>
    match model.score sel.X sel.lengths with
    | none => none
    | some logL =>
      match scoreOthers model (dicOthers sel) with
      | none => none
      | some ls =>
        let M : ℕ := sel.words.length
        if M = 1 then none
        else some (model, XF.fin (logL - ls.sum / ((M : ℚ) - 1)))

/-- `SelectorDIC.select` with the seed already applied: search the range
tracking the highest DIC (initial incumbent `highest_DIC = float('-inf')`,
no model); fall back to `base_model(n_constant)` if no candidate scored. -/
def dicSelectCore (sel : Selector) (tr : STrainer) : Option HModel :=
  match (searchLoop (dicEval sel tr) XF.bgt XF.negInf
      (rangeList sel.min_n_components sel.max_n_components)).1 with
  | some m => some m
  | none => tr sel.n_constant sel.X sel.lengths

/-- `SelectorDIC.select`: the seed is `self.random_state` for every fit. -/
def dicSelect (sel : Selector) (ftr : Trainer) : Option HModel :=
  dicSelectCore sel (ftr sel.random_state)

/-- The successfully fitted and fully scored DIC candidates, in search
order, paired with their computed DIC criterion. -/
def dicCandidates (sel : Selector) (ftr : Trainer) : List (HModel × XF) :=
  (rangeList sel.min_n_components sel.max_n_components).filterMap
    (dicEval sel (ftr sel.random_state))

/-- Modelled from the spec: `combine_sequences` is imported from
`asl_utils`, which is not under `src/`.  Per spec section 3
(ConcatenatedSequences), it builds, from a list of sequence indices, the
flattened observation matrix of the selected sequences together with the
parallel list of their lengths. -/
def combine_sequences (idx : List ℕ) (seqs : List (List Obs)) :
    List Obs × List ℕ :=
  ((idx.map (fun i => seqs.getD i [])).flatten,
   idx.map (fun i => (seqs.getD i []).length))

/-- `sklearn.model_selection.KFold(n_splits=2)` without shuffling, applied
to `n` samples: deterministic contiguous folds, the first of size
`n // 2 + n % 2 = (n + 1) / 2` and the second of size `n / 2`; each fold
yields `(train_indices, test_indices)`.  (`KFold.split` raises when
`n < n_splits`; that raise is modelled at the call site in
`cvSelectCore`.) -/
def kfold2 (n : ℕ) : List (List ℕ × List ℕ) :=
  let s0 := (n + 1) / 2
  [((List.range n).drop s0, (List.range n).take s0),
   ((List.range n).take s0, (List.range n).drop s0)]

/-- One fold iteration of `SelectorCV.select`'s inner loop: rebind
`self.X, self.lengths` to the training fold's concatenated sequences,
build the held-out fold's concatenated sequences, fit the candidate on the
training fold (the assignment `model_using_training_set = self.base_model(i)`
always happens, even when the fit fails and yields `None`), and append the
held-out log-likelihood when scoring succeeds.  The threaded state is
`(model_using_training_set, logLs, (self.X, self.lengths))`. -/
def cvFoldStep (sel : Selector) (tr : STrainer) (i : ℕ)
    (st : Option HModel × List ℚ × (List Obs × List ℕ))
    (fold : List ℕ × List ℕ) :
    Option HModel × List ℚ × (List Obs × List ℕ) :=
  let XL := combine_sequences fold.1 sel.sequences
  let XLtest := combine_sequences fold.2 sel.sequences
  match tr i XL.1 XL.2 with
  | none => (none, st.2.1, XL)
  | some m =>
    match m.score XLtest.1 XLtest.2 with
    | none => (some m, st.2.1, XL)
    | some l => (some m, st.2.1 ++ [l], XL)

/-- The two folds of one candidate state count `i` in `SelectorCV.select`:
`logLs` starts empty for each candidate; `model_using_training_set` and the
`(self.X, self.lengths)` view are overwritten by every fold before being
read, so the per-candidate run is a function of the selector and `i` alone.
Returns `(model_using_training_set, logLs, (self.X, self.lengths))` as they
stand after the candidate's folds. -/
def cvFoldRun (sel : Selector) (tr : STrainer) (i : ℕ) :
    Option HModel × List ℚ × (List Obs × List ℕ) :=
  (kfold2 sel.sequences.length).foldl (cvFoldStep sel tr i)
    (none, [], (sel.X, sel.lengths))

/-- `np.mean(logLs) if len(logLs) > 0 else float('-inf')`. -/
def cvAvg (l : List ℚ) : XF :=
  if l = [] then XF.negInf else XF.fin (l.sum / (l.length : ℚ))

/-- One outer-loop iteration of `SelectorCV.select`: run the candidate's
folds and produce `(model_using_training_set, avg_logL)`; unlike BIC/DIC,
the comparison `avg_logL > best_avg_logL` is executed for every candidate
(no surrounding `try`), so the evaluation never skips. -/
def cvEval (sel : Selector) (tr : STrainer) (i : ℕ) :
    Option (Option HModel × XF) :=
  let r := cvFoldRun sel tr i
  some (r.1, cvAvg r.2.1)

/-- The `(self.X, self.lengths)` view as it stands after `SelectorCV.select`'s
search loop: unchanged when the candidate range is empty (no fold ever ran),
otherwise the view installed by the last candidate's last fold. -/
def cvFinalXL (sel : Selector) (tr : STrainer) : List Obs × List ℕ :=
  match (rangeList sel.min_n_components sel.max_n_components).getLast? with
  | none => (sel.X, sel.lengths)
  | some i => (cvFoldRun sel tr i).2.2

/-- `SelectorCV.select` with the seed already applied, returning the result
together with the final `(self.X, self.lengths)` view.  `KFold.split`
raises `ValueError` when the focal word has fewer than two sequences, and
the `for ... in split_method.split(self.sequences)` line sits outside the
`try`, so the exception escapes `select` whenever the candidate range is
nonempty; `.error ()` models that.  Otherwise the loop tracks the highest
`avg_logL` (initial incumbent `float('-inf')`, no model); the stored
`best_model` is the winning candidate's `model_using_training_set`, which
may itself be `None` (last fold's fit failed), in which case the final
`if best_model != None` check sends it to the fallback, fitted on the
current (= last fold's) `self.X, self.lengths`. -/
def cvSelectCore (sel : Selector) (tr : STrainer) :
    Except Unit (Option HModel × (List Obs × List ℕ)) :=
  if rangeList sel.min_n_components sel.max_n_components ≠ []
      ∧ sel.sequences.length < 2 then .error ()
  else
    match (searchLoop (cvEval sel tr) XF.bgt XF.negInf
        (rangeList sel.min_n_components sel.max_n_components)).1 with
    | some (some m) => .ok (some m, cvFinalXL sel tr)
    | some none =>
      .ok (tr sel.n_constant (cvFinalXL sel tr).1 (cvFinalXL sel tr).2, cvFinalXL sel tr)
    | none =>
      .ok (tr sel.n_constant (cvFinalXL sel tr).1 (cvFinalXL sel tr).2, cvFinalXL sel tr)

/-- `SelectorCV.select`: the seed is `self.random_state` for every fit. -/
def cvSelect (sel : Selector) (ftr : Trainer) :
    Except Unit (Option HModel × (List Obs × List ℕ)) :=
  cvSelectCore sel (ftr sel.random_state)

/-- `SelectorConstant.select` with the seed already applied:
`base_model(n_constant)`, no search. -/
def constSelectCore (sel : Selector) (tr : STrainer) : Option HModel :=
  tr sel.n_constant sel.X sel.lengths

/-- `SelectorConstant.select`. -/
def constSelect (sel : Selector) (ftr : Trainer) : Option HModel :=
  constSelectCore sel (ftr sel.random_state)

/-- `SelectorBIC.select` together with the post-call values of the training
views `(self.X, self.lengths)`: the method body contains no assignment to
them, so the post-state equals the pre-state. -/
def bicSelectSt (sel : Selector) (ftr : Trainer) (logf : ℕ → ℚ) :
    Option HModel × (List Obs × List ℕ) :=
  (bicSelect sel ftr logf, (sel.X, sel.lengths))

/-- `SelectorDIC.select` together with the post-call values of the training
views `(self.X, self.lengths)`: the method body contains no assignment to
them, so the post-state equals the pre-state. -/
def dicSelectSt (sel : Selector) (ftr : Trainer) :
    Option HModel × (List Obs × List ℕ) :=
  (dicSelect sel ftr, (sel.X, sel.lengths))

/-- The value the recognizer records for one word on one test item:
the log-likelihood on success, `float('-inf')` when scoring raised. -/
def scoreOr (m : HModel) (X : List Obs) (L : List ℕ) : XF :=
  match m.score X L with
  | some l => XF.fin l
  | none => XF.negInf

/-- One word iteration of `recognize`'s inner loop over the model bank:
`probability[word] = float('-inf')`, then on a successful score overwrite
it with `logL` and update `(best_logL, best_guess)` when `logL > best_logL`.
The threaded state is `(probability, best_logL, best_guess)`; the
per-item score table is modelled as an association list in dict insertion
order. -/
def recStep (X : List Obs) (L : List ℕ)
    (st : List (String × XF) × XF × String) (p : String × HModel) :
    List (String × XF) × XF × String :=
  match p.2.score X L with
  | none => (st.1 ++ [(p.1, XF.negInf)], st.2.1, st.2.2)
  | some l =>
    (st.1 ++ [(p.1, XF.fin l)],
     if XF.blt st.2.1 (XF.fin l) then (XF.fin l, p.1) else st.2)

/-- The body of `recognize` for a single test item: iterate the model bank,
starting from an empty table, `best_logL = float('-inf')` and
`best_guess = ''`; return the item's score table and best guess. -/
def recognizeItem (models : List (String × HModel)) (X : List Obs) (L : List ℕ) :
    List (String × XF) × String :=
  let r := models.foldl (recStep X L) ([], XF.negInf, "")
  (r.1, r.2.2)

/-- `recognize(models, test_set)`: iterate the test items in
`test_set.get_all_Xlengths()` order (ascending `word_id`), appending each
item's score table and best guess to the two parallel output lists. -/
def recognize (models : List (String × HModel))
    (testItems : List (List Obs × List ℕ)) :
    List (List (String × XF)) × List String :=
  (testItems.map (fun it => (recognizeItem models it.1 it.2).1),
   testItems.map (fun it => (recognizeItem models it.1 it.2).2))

/-- The second (and last) fold's training subset for the focal word: the
first `(n + 1) / 2` sequences. -/
def cvLastTrain (sel : Selector) : List Obs × List ℕ :=
  combine_sequences
    ((List.range sel.sequences.length).take ((sel.sequences.length + 1) / 2))
    sel.sequences

/-- The loop invariant of `recognize`'s per-item fold: every recorded score
is at most `best_logL`; while `best_logL` is still `float('-inf')` the guess
is the empty sentinel and every recorded score is `float('-inf')`; once
`best_logL` has been raised, `(best_guess, best_logL)` is a recorded
entry. -/
def recInv (st : List (String × XF) × XF × String) : Prop :=
  (∀ e ∈ st.1, XF.ble e.2 st.2.1 = true)
  ∧ (st.2.1 = XF.negInf → st.2.2 = "" ∧ ∀ e ∈ st.1, e.2 = XF.negInf)
  ∧ (st.2.1 ≠ XF.negInf → (st.2.2, st.2.1) ∈ st.1)

/-! Concrete instances used to exercise the theorems on closed inputs. -/

/-- A stand-in for `np.log` that sends every size to `0`. -/
def logZ : ℕ → ℚ := fun _ => 0

/-- A well-behaved fitted model with `n` states, one feature, and constant
log-likelihood `1`. -/
def mW (n : ℕ) : HModel := ⟨n, 1, fun _ _ => some 1⟩

/-- A trainer that always fits and returns `mW n`. -/
def trW : Trainer := fun _ n _ _ => some (mW n)

/-- A trainer whose every fit fails. -/
def trFail : Trainer := fun _ _ _ _ => none

/-- A trainer that only works when invoked with seed `14`. -/
def trSeeded : Trainer := fun s n _ _ => if s = 14 then some (mW n) else none

/-- Word A's two one-row sequences. -/
def seqA : List (List Obs) := [[[0]], [[1]]]

/-- Word A's concatenated observation rows. -/
def XA : List Obs := [[0], [1]]

/-- Word B's two one-row sequences. -/
def seqB : List (List Obs) := [[[2]], [[3]]]

/-- Word B's concatenated observation rows. -/
def XB : List Obs := [[2], [3]]

/-- A selector for focal word A over the two-word corpus, with candidate
range `[2, 3]`, fallback `3` and seed `14`. -/
def selW : Selector :=
  ⟨[("A", seqA), ("B", seqB)], [("A", (XA, [1, 1])), ("B", (XB, [1, 1]))],
   seqA, XA, [1, 1], "A", 3, 2, 3, 14⟩

/-- A selector whose focal word has a single training sequence. -/
def selBad : Selector := { selW with sequences := [[[0]]], X := [[0]], lengths := [1] }

/-- The model fitted on the first cross-validation fold of `sel8`. -/
def modelA : HModel := ⟨2, 1, fun _ _ => some 1⟩

/-- The model fitted on the second cross-validation fold of `sel8`; its
scoring always fails. -/
def modelB : HModel := ⟨2, 2, fun _ _ => none⟩

/-- `selW` restricted to the single candidate state count `2`. -/
def sel8 : Selector := { selW with min_n_components := 2, max_n_components := 2 }

/-- A trainer that answers `modelA` on the training data `[[1]]` (the first
fold's training subset of `sel8`) and `modelB` on anything else. -/
def tr8 : Trainer := fun _ _ X _ => if X = [[(1 : ℚ)]] then some modelA else some modelB

/-- A two-word model bank for the recognizer: word A scores `1` everywhere,
word B always fails to score. -/
def recModels : List (String × HModel) := [("A", mW 2), ("B", modelB)]

/-- A single test item for the recognizer. -/
def recItems : List (List Obs × List ℕ) := [(XA, [1, 1])]

/-! Order lemmas for the boolean comparisons on extended values. -/

lemma XF.blt_irrefl (a : XF) : XF.blt a a = false := by
  cases a <;> simp [XF.blt]

lemma XF.blt_trans {a b c : XF} (h₁ : XF.blt a b = true) (h₂ : XF.blt b c = true) :
    XF.blt a c = true := by
  cases a <;> cases b <;> cases c <;> simp_all [XF.blt]
  exact lt_trans h₁ h₂

lemma XF.bgt_irrefl (a : XF) : XF.bgt a a = false := XF.blt_irrefl a

lemma XF.bgt_trans {a b c : XF} (h₁ : XF.bgt a b = true) (h₂ : XF.bgt b c = true) :
    XF.bgt a c = true := XF.blt_trans h₂ h₁

lemma XF.not_blt {a b : XF} : XF.blt a b = false ↔ XF.ble b a = true := by
  cases a <;> cases b <;> simp [XF.blt, XF.ble, not_lt]

lemma XF.ble_refl (a : XF) : XF.ble a a = true := by
  cases a <;> simp [XF.ble]

lemma XF.blt_to_ble {a b : XF} (h : XF.blt a b = true) : XF.ble a b = true := by
  cases a <;> cases b <;> simp_all [XF.blt, XF.ble]
  exact le_of_lt h

lemma XF.ble_blt_trans {a b c : XF} (h₁ : XF.ble a b = true) (h₂ : XF.blt b c = true) :
    XF.ble a c = true := by
  cases a <;> cases b <;> cases c <;> simp_all [XF.blt, XF.ble]
  exact le_of_lt (lt_of_le_of_lt h₁ h₂)

lemma XF.blt_negInf_fin (q : ℚ) : XF.blt XF.negInf (XF.fin q) = true := rfl

lemma XF.negInf_ble (a : XF) : XF.ble XF.negInf a = true := by
  cases a <;> rfl

lemma XF.blt_fin_posInf (q : ℚ) : XF.blt (XF.fin q) XF.posInf = true := rfl

/-! Generic facts about the best-so-far search loop. -/

lemma searchLoop_eq_pickAcc {α : Type} (eval : ℕ → Option (α × XF))
    (better : XF → XF → Bool) (init : XF) (l : List ℕ) :
    searchLoop eval better init l = pickAcc better (l.filterMap eval) (none, init) := by
  show List.foldl _ _ l = pickAcc better (l.filterMap eval) _
  generalize (none, init) = acc
  induction l generalizing acc with
  | nil => rfl
  | cons i l ih =>
    simp only [List.foldl_cons, List.filterMap_cons]
    cases h : eval i with
    | none => simpa [h] using ih _
    | some c => simp [h, pickAcc, ih _, List.foldl_cons]

lemma pickAcc_fst_some {α : Type} (better : XF → XF → Bool) (cs : List (α × XF))
    (acc : Option α × XF) (a : α) (h : acc.1 = some a) :
    ∃ b, (pickAcc better cs acc).1 = some b := by
  induction cs generalizing acc a with
  | nil => exact ⟨a, h⟩
  | cons c cs ih =>
    simp only [pickAcc, List.foldl_cons]
    by_cases hb : better c.2 acc.2 = true
    · simpa [hb] using ih (some c.1, c.2) c.1 rfl
    · simp only [Bool.not_eq_true] at hb
      simpa [hb] using ih acc a h

lemma pickAcc_eq_some_mem {α : Type} (better : XF → XF → Bool) (cs : List (α × XF))
    (acc : Option α × XF) (a : α) (s : XF)
    (h : pickAcc better cs acc = (some a, s)) :
    (a, s) ∈ cs ∨ acc = (some a, s) := by
  induction cs generalizing acc with
  | nil => exact Or.inr h
  | cons c cs ih =>
    simp only [pickAcc, List.foldl_cons] at h
    by_cases hb : better c.2 acc.2 = true
    · rw [if_pos hb] at h
      rcases ih (some c.1, c.2) h with hm | he
      · exact Or.inl (List.mem_cons_of_mem _ hm)
      · obtain ⟨h1, h2⟩ := Prod.mk.injEq _ _ _ _ ▸ he
        obtain rfl : c.1 = a := Option.some.injEq _ _ ▸ h1
        obtain rfl : c.2 = s := h2
        exact Or.inl (List.mem_cons_self _ _)
    · simp only [Bool.not_eq_true] at hb
      rw [if_neg (by simp [hb])] at h
      rcases ih acc h with hm | he
      · exact Or.inl (List.mem_cons_of_mem _ hm)
      · exact Or.inr he

lemma pickAcc_cons {α : Type} (better : XF → XF → Bool) (c : α × XF)
    (cs : List (α × XF)) (acc : Option α × XF) :
    pickAcc better (c :: cs) acc
      = pickAcc better cs (if better c.2 acc.2 then (some c.1, c.2) else acc) := rfl

lemma pickAcc_snd_improve {α : Type} (better : XF → XF → Bool)
    (htrans : ∀ x y z, better x y = true → better y z = true → better x z = true)
    (cs : List (α × XF)) (acc : Option α × XF) :
    (pickAcc better cs acc).2 = acc.2 ∨ better (pickAcc better cs acc).2 acc.2 = true := by
  induction cs generalizing acc with
  | nil => exact Or.inl rfl
  | cons c cs ih =>
    rw [pickAcc_cons]
    by_cases hb : better c.2 acc.2 = true
    · rw [if_pos hb]
      rcases ih (some c.1, c.2) with he | hi
      · exact Or.inr (by rw [he]; exact hb)
      · exact Or.inr (htrans _ _ _ hi hb)
    · rw [if_neg hb]
      exact ih acc

lemma pickAcc_minimal {α : Type} (better : XF → XF → Bool)
    (htrans : ∀ x y z, better x y = true → better y z = true → better x z = true)
    (hirr : ∀ x, better x x = false)
    (cs : List (α × XF)) (acc : Option α × XF) (c : α × XF) (hc : c ∈ cs) :
    better c.2 (pickAcc better cs acc).2 = false := by
  induction cs generalizing acc with
  | nil => cases hc
  | cons d cs ih =>
    rcases List.mem_cons.mp hc with rfl | hm
    · rw [pickAcc_cons]
      by_cases hb : better c.2 acc.2 = true
      · rw [if_pos hb]
        rcases pickAcc_snd_improve better htrans cs (some c.1, c.2) with he | hi
        · rw [he]; exact hirr _
        · cases hcb : better c.2 (pickAcc better cs (some c.1, c.2)).2 with
          | false => rfl
          | true => exact absurd (htrans _ _ _ hcb hi) (by simp [hirr])
      · rw [if_neg hb]
        rcases pickAcc_snd_improve better htrans cs acc with he | hi
        · rw [he]
          simpa using hb
        · cases hcb : better c.2 (pickAcc better cs acc).2 with
          | false => rfl
          | true =>
            exact absurd (htrans _ _ _ hcb hi) (by simpa using hb)
    · rw [pickAcc_cons]
      by_cases hb : better d.2 acc.2 = true
      · rw [if_pos hb]; exact ih _ hm
      · rw [if_neg hb]; exact ih _ hm

lemma pickAcc_none_of {α : Type} (better : XF → XF → Bool) (cs : List (α × XF))
    (init : XF) (h : ∀ c ∈ cs, better c.2 init = false) :
    pickAcc better cs (none, init) = (none, init) := by
  induction cs with
  | nil => rfl
  | cons c cs ih =>
    simp only [pickAcc, List.foldl_cons]
    rw [if_neg (by simp [h c (List.mem_cons_self _ _)])]
    exact ih (fun d hd => h d (List.mem_cons_of_mem _ hd))

lemma pickAcc_some_of {α : Type} (better : XF → XF → Bool) (cs : List (α × XF))
    (init : XF) (c : α × XF) (hc : c ∈ cs) (hb : better c.2 init = true) :
    ∃ a, (pickAcc better cs (none, init)).1 = some a := by
  induction cs with
  | nil => cases hc
  | cons d cs ih =>
    simp only [pickAcc, List.foldl_cons]
    rcases List.mem_cons.mp hc with rfl | hm
    · rw [if_pos hb]
      exact pickAcc_fst_some better cs (some c.1, c.2) c.1 rfl
    · by_cases hd : better d.2 init = true
      · rw [if_pos hd]
        exact pickAcc_fst_some better cs (some d.1, d.2) d.1 rfl
      · simp only [Bool.not_eq_true] at hd
        rw [if_neg (by simp [hd])]
        exact ih hm

/-- Membership in the inclusive candidate range. -/
lemma mem_rangeList {i a b : ℕ} : i ∈ rangeList a b ↔ a ≤ i ∧ i ≤ b := by
  rw [rangeList, List.mem_range'_1]
  omega

/-! Characterisations of the per-candidate evaluations. -/

lemma bicEval_of (sel : Selector) (tr : STrainer) (logf : ℕ → ℚ) (i : ℕ)
    (m : HModel) (logL : ℚ)
    (hf : tr i sel.X sel.lengths = some m)
    (hs : m.score sel.X sel.lengths = some logL) :
    bicEval sel tr logf i
      = some (m, XF.fin (-2 * logL
          + ((i : ℚ) ^ 2 + 2 * (i : ℚ) * (m.n_features : ℚ) - 1)
            * logf sel.X.length)) := by
  simp [bicEval, hf, hs]

lemma bicEval_inv (sel : Selector) (tr : STrainer) (logf : ℕ → ℚ) (i : ℕ)
    (m : HModel) (s : XF) (h : bicEval sel tr logf i = some (m, s)) :
    ∃ logL, tr i sel.X sel.lengths = some m
      ∧ m.score sel.X sel.lengths = some logL
      ∧ s = XF.fin (-2 * logL
          + ((i : ℚ) ^ 2 + 2 * (i : ℚ) * (m.n_features : ℚ) - 1)
            * logf sel.X.length) := by
  unfold bicEval at h
  split at h
  · cases h
  · rename_i model h1
    split at h
    · cases h
    · rename_i logL h2
      simp only [Option.some.injEq, Prod.mk.injEq] at h
      obtain ⟨rfl, rfl⟩ := h
      exact ⟨logL, h1, h2, rfl⟩

lemma dicEval_of (sel : Selector) (tr : STrainer) (i : ℕ) (m : HModel)
    (logL : ℚ) (ls : List ℚ)
    (hf : tr i sel.X sel.lengths = some m)
    (hown : m.score sel.X sel.lengths = some logL)
    (hoth : scoreOthers m (dicOthers sel) = some ls)
    (hM : sel.words.length ≠ 1) :
    dicEval sel tr i
      = some (m, XF.fin (logL - ls.sum / ((sel.words.length : ℚ) - 1))) := by
  simp [dicEval, hf, hown, hoth, hM]

lemma dicEval_inv (sel : Selector) (tr : STrainer) (i : ℕ) (m : HModel) (s : XF)
    (h : dicEval sel tr i = some (m, s)) :
    ∃ logL ls, tr i sel.X sel.lengths = some m
      ∧ m.score sel.X sel.lengths = some logL
      ∧ scoreOthers m (dicOthers sel) = some ls
      ∧ sel.words.length ≠ 1
      ∧ s = XF.fin (logL - ls.sum / ((sel.words.length : ℚ) - 1)) := by
  unfold dicEval at h
  split at h
  · cases h
  · rename_i model h1
    split at h
    · cases h
    · rename_i logL h2
      split at h
      · cases h
      · rename_i ls h3
        by_cases hM : sel.words.length = 1
        · simp [hM] at h
        · simp only [if_neg hM, Option.some.injEq, Prod.mk.injEq] at h
          obtain ⟨rfl, rfl⟩ := h
          exact ⟨logL, ls, h1, h2, h3, hM, rfl⟩

/-- The training-fold view a fold iteration installs in `self.X, self.lengths`. -/
lemma cvFoldStep_state (sel : Selector) (tr : STrainer) (i : ℕ)
    (st : Option HModel × List ℚ × (List Obs × List ℕ)) (fold : List ℕ × List ℕ) :
    (cvFoldStep sel tr i st fold).2.2 = combine_sequences fold.1 sel.sequences := by
  unfold cvFoldStep
  cases h1 : tr i (combine_sequences fold.1 sel.sequences).1
      (combine_sequences fold.1 sel.sequences).2 with
  | none => simp [h1]
  | some m =>
    cases h2 : m.score (combine_sequences fold.2 sel.sequences).1
        (combine_sequences fold.2 sel.sequences).2 with
    | none => simp [h1, h2]
    | some l => simp [h1, h2]

/-- `model_using_training_set` after a fold iteration is exactly the fit
attempt on that fold's training subset, whether or not scoring succeeded. -/
lemma cvFoldStep_fst (sel : Selector) (tr : STrainer) (i : ℕ)
    (st : Option HModel × List ℚ × (List Obs × List ℕ)) (fold : List ℕ × List ℕ) :
    (cvFoldStep sel tr i st fold).1
      = tr i (combine_sequences fold.1 sel.sequences).1
          (combine_sequences fold.1 sel.sequences).2 := by
  unfold cvFoldStep
  cases h1 : tr i (combine_sequences fold.1 sel.sequences).1
      (combine_sequences fold.1 sel.sequences).2 with
  | none => simp [h1]
  | some m =>
    cases h2 : m.score (combine_sequences fold.2 sel.sequences).1
        (combine_sequences fold.2 sel.sequences).2 with
    | none => simp [h1, h2]
    | some l => simp [h1, h2]

/-- After a candidate's folds, `model_using_training_set` is the fit attempt
of the last fold, i.e. the trainer's answer on the last fold's training
subset. -/
lemma cvFoldRun_fst (sel : Selector) (tr : STrainer) (i : ℕ) :
    (cvFoldRun sel tr i).1 = tr i (cvLastTrain sel).1 (cvLastTrain sel).2 := by
  unfold cvFoldRun kfold2 cvLastTrain
  simp only [List.foldl_cons, List.foldl_nil, cvFoldStep_fst]

/-- After a candidate's folds, the rebound `(self.X, self.lengths)` view is
the last fold's training subset. -/
lemma cvFoldRun_state (sel : Selector) (tr : STrainer) (i : ℕ) :
    (cvFoldRun sel tr i).2.2 = cvLastTrain sel := by
  unfold cvFoldRun kfold2 cvLastTrain
  simp only [List.foldl_cons, List.foldl_nil, cvFoldStep_state]

/-! The recognizer's per-item fold. -/

/-- The score table accumulates exactly one entry per word of the model
bank, in bank order: the word's log-likelihood, or `float('-inf')` when its
scoring failed. -/
lemma recFold_table (models : List (String × HModel)) (X : List Obs) (L : List ℕ) :
    ∀ st, (models.foldl (recStep X L) st).1
      = st.1 ++ models.map (fun p => (p.1, scoreOr p.2 X L)) := by
  induction models with
  | nil => intro st; simp
  | cons p ps ih =>
    intro st
    rw [List.foldl_cons, ih]
    have hstep : (recStep X L st p).1 = st.1 ++ [(p.1, scoreOr p.2 X L)] := by
      unfold recStep scoreOr
      cases h : p.2.score X L <;> simp [h]
    rw [hstep]
    simp

/-- A failed scoring appends a `float('-inf')` entry and keeps the best. -/
lemma recStep_none (X : List Obs) (L : List ℕ)
    (st : List (String × XF) × XF × String) (p : String × HModel)
    (h : p.2.score X L = none) :
    recStep X L st p = (st.1 ++ [(p.1, XF.negInf)], st.2.1, st.2.2) := by
  unfold recStep
  rw [h]

/-- A successful scoring appends the log-likelihood and updates the best on
a strict improvement. -/
lemma recStep_some (X : List Obs) (L : List ℕ)
    (st : List (String × XF) × XF × String) (p : String × HModel) (l : ℚ)
    (h : p.2.score X L = some l) :
    recStep X L st p
      = (st.1 ++ [(p.1, XF.fin l)],
         if XF.blt st.2.1 (XF.fin l) then (XF.fin l, p.1) else st.2) := by
  unfold recStep
  rw [h]

/-- The best-guess bookkeeping of `recognize` preserves `recInv`. -/
lemma recFold_inv (X : List Obs) (L : List ℕ) (models : List (String × HModel)) :
    ∀ st, recInv st → recInv (models.foldl (recStep X L) st) := by
  induction models with
  | nil => intro st h; exact h
  | cons p ps ih =>
    intro st h
    rw [List.foldl_cons]
    refine ih _ ?_
    obtain ⟨h1, h2, h3⟩ := h
    cases hsc : p.2.score X L with
    | none =>
      rw [recStep_none X L st p hsc]
      refine ⟨?_, ?_, ?_⟩
      · intro e he
        rcases List.mem_append.mp he with hm | hm
        · exact h1 e hm
        · rcases List.mem_singleton.mp hm with rfl
          exact XF.negInf_ble _
      · intro hneg
        obtain ⟨hg, hall⟩ := h2 hneg
        refine ⟨hg, ?_⟩
        intro e he
        rcases List.mem_append.mp he with hm | hm
        · exact hall e hm
        · rcases List.mem_singleton.mp hm with rfl
          rfl
      · intro hne
        exact List.mem_append_left _ (h3 hne)
    | some l =>
      rw [recStep_some X L st p l hsc]
      by_cases hlt : XF.blt st.2.1 (XF.fin l) = true
      · rw [if_pos hlt]
        refine ⟨?_, ?_, ?_⟩
        · intro e he
          rcases List.mem_append.mp he with hm | hm
          · exact XF.ble_blt_trans (h1 e hm) hlt
          · rcases List.mem_singleton.mp hm with rfl
            exact XF.ble_refl _
        · intro hneg
          cases hneg
        · intro hne
          exact List.mem_append_right _ (List.mem_singleton.mpr rfl)
      · rw [if_neg hlt]
        have hle : XF.ble (XF.fin l) st.2.1 = true :=
          XF.not_blt.mp (by simpa using hlt)
        refine ⟨?_, ?_, ?_⟩
        · intro e he
          rcases List.mem_append.mp he with hm | hm
          · exact h1 e hm
          · rcases List.mem_singleton.mp hm with rfl
            exact hle
        · intro hneg
          rw [hneg] at hlt
          exact absurd rfl hlt
        · intro hne
          exact List.mem_append_left _ (h3 hne)

/-! Plumbing: the selects as best-so-far picks over their candidate lists. -/

lemma XF.blt_trans3 : ∀ x y z, XF.blt x y = true → XF.blt y z = true →
    XF.blt x z = true := fun _ _ _ h1 h2 => XF.blt_trans h1 h2

lemma XF.bgt_trans3 : ∀ x y z, XF.bgt x y = true → XF.bgt y z = true →
    XF.bgt x z = true := fun _ _ _ h1 h2 => XF.bgt_trans h1 h2

lemma bicCandidates_def (sel : Selector) (ftr : Trainer) (logf : ℕ → ℚ) :
    bicCandidates sel ftr logf
      = (rangeList sel.min_n_components sel.max_n_components).filterMap
          (bicEval sel (ftr sel.random_state) logf) := rfl

lemma dicCandidates_def (sel : Selector) (ftr : Trainer) :
    dicCandidates sel ftr
      = (rangeList sel.min_n_components sel.max_n_components).filterMap
          (dicEval sel (ftr sel.random_state)) := rfl

lemma bicSelect_eq_pick (sel : Selector) (ftr : Trainer) (logf : ℕ → ℚ) :
    bicSelect sel ftr logf
      = match (pickAcc XF.blt (bicCandidates sel ftr logf) (none, XF.posInf)).1 with
        | some m => some m
        | none => ftr sel.random_state sel.n_constant sel.X sel.lengths := by
  unfold bicSelect bicSelectCore
  rw [searchLoop_eq_pickAcc]
  rfl

lemma dicSelect_eq_pick (sel : Selector) (ftr : Trainer) :
    dicSelect sel ftr
      = match (pickAcc XF.bgt (dicCandidates sel ftr) (none, XF.negInf)).1 with
        | some m => some m
        | none => ftr sel.random_state sel.n_constant sel.X sel.lengths := by
  unfold dicSelect dicSelectCore
  rw [searchLoop_eq_pickAcc]
  rfl

/-- C1: for every candidate state count `i` in
`[min_n_components, max_n_components]` that `SelectorBIC.select`
successfully fits and scores, the criterion it records is
`BIC = -2*logL + p*log(N)` with `logL` the candidate's log-likelihood on
the focal word's own training data, `N` the number of training observation
rows and `p = i^2 + 2*i*n_features - 1`; and when the scored-candidate list
is nonempty, `select` returns a successfully scored candidate attaining the
minimal BIC over the search range. -/
theorem bic_select_formula_min (sel : Selector) (ftr : Trainer) (logf : ℕ → ℚ)
    (i : ℕ) (m : HModel) (logL : ℚ)
    (hi : i ∈ rangeList sel.min_n_components sel.max_n_components)
    (hf : ftr sel.random_state i sel.X sel.lengths = some m)
    (hs : m.score sel.X sel.lengths = some logL)
    (hne : bicCandidates sel ftr logf ≠ []) :
    (m, XF.fin (-2 * logL
        + ((i : ℚ) ^ 2 + 2 * (i : ℚ) * (m.n_features : ℚ) - 1)
          * logf sel.X.length)) ∈ bicCandidates sel ftr logf
    ∧ ∃ mb sb, bicSelect sel ftr logf = some mb
        ∧ (mb, sb) ∈ bicCandidates sel ftr logf
        ∧ ∀ c ∈ bicCandidates sel ftr logf, XF.ble sb c.2 = true := by
  constructor
  · rw [bicCandidates_def]
    exact List.mem_filterMap.mpr ⟨i, hi, bicEval_of sel _ logf i m logL hf hs⟩
  · obtain ⟨c0, hc0⟩ := List.exists_mem_of_ne_nil _ hne
    obtain ⟨i0, hi0, he0⟩ :=
      List.mem_filterMap.mp (bicCandidates_def sel ftr logf ▸ hc0)
    obtain ⟨l0, hf0, hs0, hv0⟩ := bicEval_inv sel _ logf i0 c0.1 c0.2 he0
    have hbt : XF.blt c0.2 XF.posInf = true := by
      rw [hv0]; exact XF.blt_fin_posInf _
    obtain ⟨mb, hmb⟩ :=
      pickAcc_some_of XF.blt (bicCandidates sel ftr logf) XF.posInf c0 hc0 hbt
    have hrp : pickAcc XF.blt (bicCandidates sel ftr logf) (none, XF.posInf)
        = (some mb, (pickAcc XF.blt (bicCandidates sel ftr logf) (none, XF.posInf)).2) := by
      rw [← hmb]
    have hmem : (mb, (pickAcc XF.blt (bicCandidates sel ftr logf) (none, XF.posInf)).2)
        ∈ bicCandidates sel ftr logf := by
      rcases pickAcc_eq_some_mem XF.blt _ _ mb _ hrp with h | h
      · exact h
      · exact absurd h (by simp)
    refine ⟨mb, _, ?_, hmem, ?_⟩
    · rw [bicSelect_eq_pick, hrp]
    · intro c hc
      exact XF.not_blt.mp
        (pickAcc_minimal XF.blt XF.blt_trans3 XF.blt_irrefl
          (bicCandidates sel ftr logf) (none, XF.posInf) c hc)

/-- Witness for `bic_select_formula_min` on the concrete two-word corpus. -/
theorem bic_select_formula_min_witness :
    (2 ∈ rangeList selW.min_n_components selW.max_n_components
      ∧ trW selW.random_state 2 selW.X selW.lengths = some (mW 2)
      ∧ (mW 2).score selW.X selW.lengths = some 1
      ∧ bicCandidates selW trW logZ ≠ [])
    ∧ ∃ mb sb, bicSelect selW trW logZ = some mb
        ∧ (mb, sb) ∈ bicCandidates selW trW logZ
        ∧ ∀ c ∈ bicCandidates selW trW logZ, XF.ble sb c.2 = true := by
  have h1 : 2 ∈ rangeList selW.min_n_components selW.max_n_components := by decide
  have h2 : trW selW.random_state 2 selW.X selW.lengths = some (mW 2) := rfl
  have h3 : (mW 2).score selW.X selW.lengths = some 1 := rfl
  have h4 : bicCandidates selW trW logZ ≠ [] := by
    have hlen : (bicCandidates selW trW logZ).length = 2 := rfl
    intro h
    rw [h] at hlen
    exact absurd hlen (by decide)
  exact ⟨⟨h1, h2, h3, h4⟩,
    (bic_select_formula_min selW trW logZ 2 (mW 2) 1 h1 h2 h3 h4).2⟩

/-- C2: for every candidate state count `i` in the search range that
`SelectorDIC.select` successfully fits and fully scores, the criterion it
records is `DIC = logL - (sum of the candidate's log-likelihoods on every
other word's full training data) / (M - 1)` with `M` the total vocabulary
size; and when the scored-candidate list is nonempty, `select` returns a
candidate attaining the maximal DIC over the search range. -/
theorem dic_select_formula_max (sel : Selector) (ftr : Trainer)
    (i : ℕ) (m : HModel) (logL : ℚ) (ls : List ℚ)
    (hi : i ∈ rangeList sel.min_n_components sel.max_n_components)
    (hf : ftr sel.random_state i sel.X sel.lengths = some m)
    (hown : m.score sel.X sel.lengths = some logL)
    (hoth : scoreOthers m (dicOthers sel) = some ls)
    (hM : sel.words.length ≠ 1)
    (hne : dicCandidates sel ftr ≠ []) :
    (m, XF.fin (logL - ls.sum / ((sel.words.length : ℚ) - 1)))
        ∈ dicCandidates sel ftr
    ∧ ∃ mb sb, dicSelect sel ftr = some mb
        ∧ (mb, sb) ∈ dicCandidates sel ftr
        ∧ ∀ c ∈ dicCandidates sel ftr, XF.ble c.2 sb = true := by
  constructor
  · rw [dicCandidates_def]
    exact List.mem_filterMap.mpr ⟨i, hi, dicEval_of sel _ i m logL ls hf hown hoth hM⟩
  · obtain ⟨c0, hc0⟩ := List.exists_mem_of_ne_nil _ hne
    obtain ⟨i0, hi0, he0⟩ :=
      List.mem_filterMap.mp (dicCandidates_def sel ftr ▸ hc0)
    obtain ⟨l0, ls0, hf0, hs0, ho0, hM0, hv0⟩ := dicEval_inv sel _ i0 c0.1 c0.2 he0
    have hbt : XF.bgt c0.2 XF.negInf = true := by
      rw [hv0]; exact XF.blt_negInf_fin _
    obtain ⟨mb, hmb⟩ :=
      pickAcc_some_of XF.bgt (dicCandidates sel ftr) XF.negInf c0 hc0 hbt
    have hrp : pickAcc XF.bgt (dicCandidates sel ftr) (none, XF.negInf)
        = (some mb, (pickAcc XF.bgt (dicCandidates sel ftr) (none, XF.negInf)).2) := by
      rw [← hmb]
    have hmem : (mb, (pickAcc XF.bgt (dicCandidates sel ftr) (none, XF.negInf)).2)
        ∈ dicCandidates sel ftr := by
      rcases pickAcc_eq_some_mem XF.bgt _ _ mb _ hrp with h | h
      · exact h
      · exact absurd h (by simp)
    refine ⟨mb, _, ?_, hmem, ?_⟩
    · rw [dicSelect_eq_pick, hrp]
    · intro c hc
      exact XF.not_blt.mp
        (pickAcc_minimal XF.bgt XF.bgt_trans3 XF.bgt_irrefl
          (dicCandidates sel ftr) (none, XF.negInf) c hc)

/-- Witness for `dic_select_formula_max` on the concrete two-word corpus. -/
theorem dic_select_formula_max_witness :
    (2 ∈ rangeList selW.min_n_components selW.max_n_components
      ∧ trW selW.random_state 2 selW.X selW.lengths = some (mW 2)
      ∧ (mW 2).score selW.X selW.lengths = some 1
      ∧ scoreOthers (mW 2) (dicOthers selW) = some [1]
      ∧ selW.words.length ≠ 1
      ∧ dicCandidates selW trW ≠ [])
    ∧ ∃ mb sb, dicSelect selW trW = some mb
        ∧ (mb, sb) ∈ dicCandidates selW trW
        ∧ ∀ c ∈ dicCandidates selW trW, XF.ble c.2 sb = true := by
  have h1 : 2 ∈ rangeList selW.min_n_components selW.max_n_components := by decide
  have h2 : trW selW.random_state 2 selW.X selW.lengths = some (mW 2) := rfl
  have h3 : (mW 2).score selW.X selW.lengths = some 1 := rfl
  have h4 : scoreOthers (mW 2) (dicOthers selW) = some [1] := rfl
  have h5 : selW.words.length ≠ 1 := by decide
  have h6 : dicCandidates selW trW ≠ [] := by
    have hlen : (dicCandidates selW trW).length = 2 := rfl
    intro h
    rw [h] at hlen
    exact absurd hlen (by decide)
  exact ⟨⟨h1, h2, h3, h4, h5, h6⟩,
    (dic_select_formula_max selW trW 2 (mW 2) 1 [1] h1 h2 h3 h4 h5 h6).2⟩

lemma cvEval_eq (sel : Selector) (tr : STrainer) (i : ℕ) :
    cvEval sel tr i
      = some ((cvFoldRun sel tr i).1, cvAvg (cvFoldRun sel tr i).2.1) := rfl

lemma cvSelectCore_cases (sel : Selector) (tr : STrainer)
    (hg : ¬(rangeList sel.min_n_components sel.max_n_components ≠ []
        ∧ sel.sequences.length < 2)) :
    cvSelectCore sel tr
      = match (searchLoop (cvEval sel tr) XF.bgt XF.negInf
          (rangeList sel.min_n_components sel.max_n_components)).1 with
        | some (some m) => .ok (some m, cvFinalXL sel tr)
        | some none =>
          .ok (tr sel.n_constant (cvFinalXL sel tr).1 (cvFinalXL sel tr).2, cvFinalXL sel tr)
        | none =>
          .ok (tr sel.n_constant (cvFinalXL sel tr).1 (cvFinalXL sel tr).2, cvFinalXL sel tr) := by
  unfold cvSelectCore
  rw [if_neg hg]

/-- When no cross-validation candidate records any held-out log-likelihood,
the search loop never replaces the initial `(None, float('-inf'))`. -/
lemma cvPick_none (sel : Selector) (tr : STrainer)
    (hc : ∀ i ∈ rangeList sel.min_n_components sel.max_n_components,
        (cvFoldRun sel tr i).2.1 = []) :
    searchLoop (cvEval sel tr) XF.bgt XF.negInf
        (rangeList sel.min_n_components sel.max_n_components)
      = (none, XF.negInf) := by
  rw [searchLoop_eq_pickAcc]
  apply pickAcc_none_of
  intro c hcm
  obtain ⟨j, hj, hje⟩ := List.mem_filterMap.mp hcm
  rw [cvEval_eq] at hje
  have hc2 : c.2 = cvAvg (cvFoldRun sel tr j).2.1 := by
    have hp := Option.some.inj hje
    rw [← hp]
  rw [hc2, hc j hj]
  rfl

/-- C3: for SelectorBIC, SelectorDIC and SelectorCV, if no candidate state
count in the range produces a scored candidate, `select` returns the
fallback `base_model(n_constant)` fit; and if that fallback fit also fails,
`select` returns the null result rather than raising. -/
theorem selectors_fallback_policy (sel : Selector) (ftr : Trainer) (logf : ℕ → ℚ)
    (hb : bicCandidates sel ftr logf = [])
    (hd : dicCandidates sel ftr = [])
    (hc : ∀ i ∈ rangeList sel.min_n_components sel.max_n_components,
        (cvFoldRun sel (ftr sel.random_state) i).2.1 = [])
    (hn : 2 ≤ sel.sequences.length) :
    bicSelect sel ftr logf = ftr sel.random_state sel.n_constant sel.X sel.lengths
    ∧ dicSelect sel ftr = ftr sel.random_state sel.n_constant sel.X sel.lengths
    ∧ cvSelect sel ftr
        = .ok (ftr sel.random_state sel.n_constant
            (cvFinalXL sel (ftr sel.random_state)).1
            (cvFinalXL sel (ftr sel.random_state)).2,
          cvFinalXL sel (ftr sel.random_state))
    ∧ ((∀ X L, ftr sel.random_state sel.n_constant X L = none) →
        bicSelect sel ftr logf = none ∧ dicSelect sel ftr = none
        ∧ ∃ XL, cvSelect sel ftr = .ok (none, XL)) := by
  have hg : ¬(rangeList sel.min_n_components sel.max_n_components ≠ []
      ∧ sel.sequences.length < 2) := by
    rintro ⟨_, h2⟩
    omega
  have hbic : bicSelect sel ftr logf
      = ftr sel.random_state sel.n_constant sel.X sel.lengths := by
    rw [bicSelect_eq_pick, hb]
    rfl
  have hdic : dicSelect sel ftr
      = ftr sel.random_state sel.n_constant sel.X sel.lengths := by
    rw [dicSelect_eq_pick, hd]
    rfl
  have hcv : cvSelect sel ftr
      = .ok (ftr sel.random_state sel.n_constant
          (cvFinalXL sel (ftr sel.random_state)).1
          (cvFinalXL sel (ftr sel.random_state)).2,
        cvFinalXL sel (ftr sel.random_state)) := by
    unfold cvSelect
    rw [cvSelectCore_cases sel (ftr sel.random_state) hg,
      cvPick_none sel (ftr sel.random_state) hc]
  refine ⟨hbic, hdic, hcv, ?_⟩
  intro hfall
  refine ⟨by rw [hbic, hfall], by rw [hdic, hfall],
    ⟨cvFinalXL sel (ftr sel.random_state), by rw [hcv, hfall]⟩⟩

/-- Witness for `selectors_fallback_policy` with an always-failing trainer. -/
theorem selectors_fallback_policy_witness :
    2 ≤ selW.sequences.length
    ∧ bicSelect selW trFail logZ
        = trFail selW.random_state selW.n_constant selW.X selW.lengths
    ∧ dicSelect selW trFail
        = trFail selW.random_state selW.n_constant selW.X selW.lengths
    ∧ bicSelect selW trFail logZ = none
    ∧ dicSelect selW trFail = none
    ∧ ∃ XL, cvSelect selW trFail = .ok (none, XL) := by
  have hb : bicCandidates selW trFail logZ = [] := rfl
  have hd : dicCandidates selW trFail = [] := rfl
  have hc : ∀ i ∈ rangeList selW.min_n_components selW.max_n_components,
      (cvFoldRun selW (trFail 14) i).2.1 = [] := by decide
  have hn : 2 ≤ selW.sequences.length := by decide
  have hmain := selectors_fallback_policy selW trFail logZ hb hd hc hn
  have hnull := hmain.2.2.2 (fun X L => rfl)
  exact ⟨hn, hmain.1, hmain.2.1, hnull.1, hnull.2.1, hnull.2.2⟩

/-- C4: whenever a concrete strategy's `select` returns a non-null model
(the trainer honouring the `GaussianHMM` contract that a fitted model's
state count is the requested one), that model's state count lies in
`[min_n_components, max_n_components]` or equals `n_constant`. -/
theorem select_state_count_in_range (sel : Selector) (ftr : Trainer) (logf : ℕ → ℚ)
    (htr : ∀ s n X L m, ftr s n X L = some m → m.n_components = n) :
    (∀ m, constSelect sel ftr = some m → m.n_components = sel.n_constant)
    ∧ (∀ m, bicSelect sel ftr logf = some m →
        (sel.min_n_components ≤ m.n_components
          ∧ m.n_components ≤ sel.max_n_components)
        ∨ m.n_components = sel.n_constant)
    ∧ (∀ m, dicSelect sel ftr = some m →
        (sel.min_n_components ≤ m.n_components
          ∧ m.n_components ≤ sel.max_n_components)
        ∨ m.n_components = sel.n_constant)
    ∧ (∀ m XL, cvSelect sel ftr = Except.ok (some m, XL) →
        (sel.min_n_components ≤ m.n_components
          ∧ m.n_components ≤ sel.max_n_components)
        ∨ m.n_components = sel.n_constant) := by
  refine ⟨?_, ?_, ?_, ?_⟩
  · intro m h
    exact htr _ _ _ _ m h
  · intro m h
    rw [bicSelect_eq_pick] at h
    cases hp : (pickAcc XF.blt (bicCandidates sel ftr logf) (none, XF.posInf)).1 with
    | some mb =>
      simp only [hp] at h
      obtain rfl : mb = m := Option.some.inj h
      have hrp : pickAcc XF.blt (bicCandidates sel ftr logf) (none, XF.posInf)
          = (some mb, (pickAcc XF.blt (bicCandidates sel ftr logf) (none, XF.posInf)).2) := by
        rw [← hp]
      rcases pickAcc_eq_some_mem XF.blt _ _ mb _ hrp with hmem | habs
      · obtain ⟨i, hi, hie⟩ :=
          List.mem_filterMap.mp (bicCandidates_def sel ftr logf ▸ hmem)
        obtain ⟨logL, hfit, -, -⟩ := bicEval_inv sel _ logf i _ _ hie
        rw [htr _ _ _ _ _ hfit]
        exact Or.inl (mem_rangeList.mp hi)
      · exact absurd habs (by simp)
    | none =>
      simp only [hp] at h
      exact Or.inr (htr _ _ _ _ m h)
  · intro m h
    rw [dicSelect_eq_pick] at h
    cases hp : (pickAcc XF.bgt (dicCandidates sel ftr) (none, XF.negInf)).1 with
    | some mb =>
      simp only [hp] at h
      obtain rfl : mb = m := Option.some.inj h
      have hrp : pickAcc XF.bgt (dicCandidates sel ftr) (none, XF.negInf)
          = (some mb, (pickAcc XF.bgt (dicCandidates sel ftr) (none, XF.negInf)).2) := by
        rw [← hp]
      rcases pickAcc_eq_some_mem XF.bgt _ _ mb _ hrp with hmem | habs
      · obtain ⟨i, hi, hie⟩ :=
          List.mem_filterMap.mp (dicCandidates_def sel ftr ▸ hmem)
        obtain ⟨logL, ls, hfit, -, -, -, -⟩ := dicEval_inv sel _ i _ _ hie
        rw [htr _ _ _ _ _ hfit]
        exact Or.inl (mem_rangeList.mp hi)
      · exact absurd habs (by simp)
    | none =>
      simp only [hp] at h
      exact Or.inr (htr _ _ _ _ m h)
  · intro m XL h
    unfold cvSelect at h
    by_cases hg : rangeList sel.min_n_components sel.max_n_components ≠ []
        ∧ sel.sequences.length < 2
    · unfold cvSelectCore at h
      rw [if_pos hg] at h
      simp at h
    · rw [cvSelectCore_cases sel (ftr sel.random_state) hg] at h
      cases hp : (searchLoop (cvEval sel (ftr sel.random_state)) XF.bgt XF.negInf
          (rangeList sel.min_n_components sel.max_n_components)).1 with
      | some ob =>
        cases ob with
        | some mb =>
          simp only [hp, Except.ok.injEq, Prod.mk.injEq, Option.some.injEq] at h
          obtain ⟨rfl, -⟩ := h
          rw [searchLoop_eq_pickAcc] at hp
          have hrp : pickAcc XF.bgt
              ((rangeList sel.min_n_components sel.max_n_components).filterMap
                (cvEval sel (ftr sel.random_state))) (none, XF.negInf)
              = (some (some mb), (pickAcc XF.bgt
                  ((rangeList sel.min_n_components sel.max_n_components).filterMap
                    (cvEval sel (ftr sel.random_state))) (none, XF.negInf)).2) := by
            rw [← hp]
          rcases pickAcc_eq_some_mem XF.bgt _ _ (some mb) _ hrp with hmem | habs
          · obtain ⟨i, hi, hie⟩ := List.mem_filterMap.mp hmem
            rw [cvEval_eq] at hie
            have hfst := congrArg Prod.fst (Option.some.inj hie)
            rw [cvFoldRun_fst] at hfst
            rw [htr _ _ _ _ _ hfst]
            exact Or.inl (mem_rangeList.mp hi)
          · exact absurd habs (by simp)
        | none =>
          simp only [hp, Except.ok.injEq, Prod.mk.injEq] at h
          exact Or.inr (htr _ _ _ _ m h.1)
      | none =>
        simp only [hp, Except.ok.injEq, Prod.mk.injEq] at h
        exact Or.inr (htr _ _ _ _ m h.1)

/-- Witness for `select_state_count_in_range` with the always-fitting
trainer. -/
theorem select_state_count_in_range_witness :
    (∀ s n X L m, trW s n X L = some m → m.n_components = n)
    ∧ (mW selW.n_constant).n_components = selW.n_constant := by
  have htrp : ∀ s n X L m, trW s n X L = some m → m.n_components = n := by
    intro s n X L m h
    injection h with h2
    rw [← h2]
    rfl
  exact ⟨htrp,
    (select_state_count_in_range selW trW logZ htrp).1 (mW selW.n_constant) rfl⟩

/-- C5: `recognize` returns two lists of length equal to the number of test
items, aligned index-for-index with the test items; when some word of the
bank scored above `float('-inf')` on item `k`, `guesses[k]` is a word
achieving the maximum score recorded in `probabilities[k]`, and otherwise
it is the empty sentinel. -/
theorem recognize_alignment_argmax (models : List (String × HModel))
    (testItems : List (List Obs × List ℕ)) :
    (recognize models testItems).1.length = testItems.length
    ∧ (recognize models testItems).2.length = testItems.length
    ∧ ∀ (k : ℕ) (item : List Obs × List ℕ), testItems[k]? = some item →
        (recognize models testItems).1[k]?
            = some (recognizeItem models item.1 item.2).1
        ∧ (recognize models testItems).2[k]?
            = some (recognizeItem models item.1 item.2).2
        ∧ ((∃ e ∈ (recognizeItem models item.1 item.2).1,
              XF.blt XF.negInf e.2 = true) →
            ∃ sb, ((recognizeItem models item.1 item.2).2, sb)
                ∈ (recognizeItem models item.1 item.2).1
              ∧ ∀ e ∈ (recognizeItem models item.1 item.2).1,
                  XF.ble e.2 sb = true)
        ∧ ((∀ e ∈ (recognizeItem models item.1 item.2).1, e.2 = XF.negInf) →
            (recognizeItem models item.1 item.2).2 = "") := by
  refine ⟨by simp [recognize], by simp [recognize], ?_⟩
  intro k item hk
  have hinv : recInv (models.foldl (recStep item.1 item.2) ([], XF.negInf, "")) := by
    refine recFold_inv item.1 item.2 models ([], XF.negInf, "") ?_
    refine ⟨?_, ?_, ?_⟩
    · intro e he
      exact absurd he (List.not_mem_nil e)
    · intro _
      exact ⟨rfl, fun e he => absurd he (List.not_mem_nil e)⟩
    · intro h
      exact absurd rfl h
  obtain ⟨h1, h2, h3⟩ := hinv
  refine ⟨?_, ?_, ?_, ?_⟩
  · simp [recognize, List.getElem?_map, hk]
  · simp [recognize, List.getElem?_map, hk]
  · rintro ⟨e, he, hegt⟩
    by_cases hneg :
        (models.foldl (recStep item.1 item.2) ([], XF.negInf, "")).2.1 = XF.negInf
    · have hall := (h2 hneg).2 e he
      rw [hall] at hegt
      exact absurd hegt (by decide)
    · exact ⟨_, h3 hneg, fun e2 he2 => h1 e2 he2⟩
  · intro hall
    by_cases hneg :
        (models.foldl (recStep item.1 item.2) ([], XF.negInf, "")).2.1 = XF.negInf
    · exact (h2 hneg).1
    · exact absurd (hall _ (h3 hneg)) hneg

/-- Witness for `recognize_alignment_argmax` on a one-item test set. -/
theorem recognize_alignment_argmax_witness :
    recItems[0]? = some (XA, [1, 1])
    ∧ (recognize recModels recItems).1[0]?
        = some (recognizeItem recModels XA [1, 1]).1
    ∧ (recognize recModels recItems).2[0]?
        = some (recognizeItem recModels XA [1, 1]).2 := by
  have h : recItems[0]? = some (XA, [1, 1]) := rfl
  have hmain := (recognize_alignment_argmax recModels recItems).2.2 0 (XA, [1, 1]) h
  exact ⟨h, hmain.1, hmain.2.1⟩

/-- C6: for every test item, every word of the model bank appears as a key
of that item's score table, a word whose scoring fails is recorded as
`float('-inf')`, and all remaining words are still scored (the table is the
full map over the bank — no failure aborts the item or escapes
`recognize`). -/
theorem recognize_table_complete (models : List (String × HModel))
    (X : List Obs) (L : List ℕ) :
    (recognizeItem models X L).1 = models.map (fun p => (p.1, scoreOr p.2 X L))
    ∧ (∀ w m, (w, m) ∈ models → (w, scoreOr m X L) ∈ (recognizeItem models X L).1)
    ∧ (∀ w m, (w, m) ∈ models → m.score X L = none →
        (w, XF.negInf) ∈ (recognizeItem models X L).1) := by
  have ht : (recognizeItem models X L).1
      = models.map (fun p => (p.1, scoreOr p.2 X L)) := by
    show (models.foldl (recStep X L) ([], XF.negInf, "")).1 = _
    rw [recFold_table models X L ([], XF.negInf, "")]
    rw [List.nil_append]
  refine ⟨ht, ?_, ?_⟩
  · intro w m hm
    rw [ht]
    exact List.mem_map.mpr ⟨(w, m), hm, rfl⟩
  · intro w m hm hsc
    rw [ht]
    refine List.mem_map.mpr ⟨(w, m), hm, ?_⟩
    simp [scoreOr, hsc]

/-- Witness for `recognize_table_complete`: word B's model fails to score
and is recorded as negative infinity. -/
theorem recognize_table_complete_witness :
    (("B", modelB) ∈ recModels ∧ modelB.score XA [1, 1] = none)
    ∧ ("B", XF.negInf) ∈ (recognizeItem recModels XA [1, 1]).1 := by
  have hm : ("B", modelB) ∈ recModels := by
    simp [recModels]
  have hs : modelB.score XA [1, 1] = none := rfl
  exact ⟨⟨hm, hs⟩,
    (recognize_table_complete recModels XA [1, 1]).2.2 "B" modelB hm hs⟩

/-- C7 counterexample: with a focal word of a single training sequence and
a nonempty candidate range, `SelectorCV.select` raises — the 2-fold split
error occurs outside the per-candidate `try` and escapes to the caller —
even though the trainer always succeeds. -/
theorem cv_raises_single_sequence_cex :
    selBad.sequences.length = 1 ∧ cvSelect selBad trW = Except.error () :=
  ⟨rfl, rfl⟩

/-- C7 (amended): per-candidate fit and scoring failures are swallowed
inside every strategy's `select` — BIC and DIC never raise (they are total
functions into an optional model), and `SelectorCV.select` never raises
provided the focal word has at least two sequences; but when the candidate
range is nonempty and the focal word has fewer than two sequences, the
`KFold` split error escapes `SelectorCV.select` and it raises instead of
returning an absent result. -/
theorem cv_error_behavior (sel : Selector) (ftr : Trainer) :
    (2 ≤ sel.sequences.length → ∃ r, cvSelect sel ftr = Except.ok r)
    ∧ (rangeList sel.min_n_components sel.max_n_components ≠ [] →
        sel.sequences.length < 2 → cvSelect sel ftr = Except.error ()) := by
  constructor
  · intro hn
    have hg : ¬(rangeList sel.min_n_components sel.max_n_components ≠ []
        ∧ sel.sequences.length < 2) := by
      rintro ⟨_, h2⟩
      omega
    unfold cvSelect
    rw [cvSelectCore_cases sel (ftr sel.random_state) hg]
    cases hp : (searchLoop (cvEval sel (ftr sel.random_state)) XF.bgt XF.negInf
        (rangeList sel.min_n_components sel.max_n_components)).1 with
    | some ob =>
      cases ob with
      | some m => exact ⟨_, rfl⟩
      | none => exact ⟨_, rfl⟩
    | none => exact ⟨_, rfl⟩
  · intro h1 h2
    unfold cvSelect cvSelectCore
    rw [if_pos ⟨h1, h2⟩]

/-- Witness for `cv_error_behavior`: a two-sequence word yields a non-raising
run, and the one-sequence word `selBad` makes `SelectorCV.select` raise. -/
theorem cv_error_behavior_witness :
    (2 ≤ selW.sequences.length ∧ ∃ r, cvSelect selW trW = Except.ok r)
    ∧ (rangeList selBad.min_n_components selBad.max_n_components ≠ []
        ∧ selBad.sequences.length < 2
        ∧ cvSelect selBad trW = Except.error ()) := by
  have hn : 2 ≤ selW.sequences.length := by decide
  have h1 : rangeList selBad.min_n_components selBad.max_n_components ≠ [] := by decide
  have h2 : selBad.sequences.length < 2 := by decide
  exact ⟨⟨hn, (cv_error_behavior selW trW).1 hn⟩,
    ⟨h1, h2, (cv_error_behavior selBad trW).2 h1 h2⟩⟩

/-- C8 counterexample: on `sel8` (single candidate `2`, two sequences) with
trainer `tr8`, the first fold's fit `modelA` scores successfully (it is the
only successfully evaluated fold, with held-out log-likelihood list `[1]`),
the second fold's fit `modelB` fails to score, yet `SelectorCV.select`
returns `modelB` — the last fold's fit attempt — not the last successfully
evaluated fold's `modelA`. -/
theorem cv_last_fold_cex :
    cvSelect sel8 tr8 = Except.ok (some modelB, ([[(0 : ℚ)]], [1]))
    ∧ tr8 sel8.random_state 2 [[(1 : ℚ)]] [1] = some modelA
    ∧ (cvFoldRun sel8 (tr8 sel8.random_state) 2).2.1 = [1]
    ∧ modelB ≠ modelA := by
  refine ⟨rfl, rfl, rfl, ?_⟩
  intro h
  exact absurd (congrArg HModel.n_features h) (by decide)

/-- C8 (amended): when the search loop of `SelectorCV.select` picks a
winning candidate with a stored non-null model, the returned model is the
fit attempt of the winning state count's LAST fold iteration — the
trainer's answer on the last fold's training subset, whether or not that
fold's held-out scoring succeeded — the winning mean is maximal among the
candidates' means, and each candidate's mean is the arithmetic mean of its
recorded held-out fold log-likelihoods, negative infinity when no fold of
that candidate recorded one. -/
theorem cv_winner_last_fold (sel : Selector) (ftr : Trainer) (m : HModel) (s : XF)
    (hn : 2 ≤ sel.sequences.length)
    (hw : searchLoop (cvEval sel (ftr sel.random_state)) XF.bgt XF.negInf
        (rangeList sel.min_n_components sel.max_n_components)
      = (some (some m), s)) :
    (∃ XL, cvSelect sel ftr = Except.ok (some m, XL))
    ∧ (∃ i, i ∈ rangeList sel.min_n_components sel.max_n_components
        ∧ ftr sel.random_state i (cvLastTrain sel).1 (cvLastTrain sel).2 = some m
        ∧ s = cvAvg (cvFoldRun sel (ftr sel.random_state) i).2.1
        ∧ ∀ j ∈ rangeList sel.min_n_components sel.max_n_components,
            XF.ble (cvAvg (cvFoldRun sel (ftr sel.random_state) j).2.1) s = true)
    ∧ (∀ l : List ℚ, cvAvg l
        = if l = [] then XF.negInf else XF.fin (l.sum / (l.length : ℚ))) := by
  have hg : ¬(rangeList sel.min_n_components sel.max_n_components ≠ []
      ∧ sel.sequences.length < 2) := by
    rintro ⟨_, h2⟩
    omega
  have hfst : (searchLoop (cvEval sel (ftr sel.random_state)) XF.bgt XF.negInf
      (rangeList sel.min_n_components sel.max_n_components)).1 = some (some m) := by
    rw [hw]
  refine ⟨⟨cvFinalXL sel (ftr sel.random_state), ?_⟩, ?_, fun l => rfl⟩
  · unfold cvSelect
    rw [cvSelectCore_cases sel (ftr sel.random_state) hg, hfst]
  · rw [searchLoop_eq_pickAcc] at hw
    rcases pickAcc_eq_some_mem XF.bgt _ _ (some m) s hw with hmem | habs
    · obtain ⟨i, hi, hie⟩ := List.mem_filterMap.mp hmem
      rw [cvEval_eq] at hie
      have hp := Option.some.inj hie
      have hp1 := congrArg Prod.fst hp
      have hp2 := congrArg Prod.snd hp
      rw [cvFoldRun_fst] at hp1
      refine ⟨i, hi, hp1, hp2.symm, ?_⟩
      intro j hj
      have hmin := pickAcc_minimal XF.bgt XF.bgt_trans3 XF.bgt_irrefl
        ((rangeList sel.min_n_components sel.max_n_components).filterMap
          (cvEval sel (ftr sel.random_state)))
        (none, XF.negInf)
        ((cvFoldRun sel (ftr sel.random_state) j).1,
          cvAvg (cvFoldRun sel (ftr sel.random_state) j).2.1)
        (List.mem_filterMap.mpr ⟨j, hj, cvEval_eq sel (ftr sel.random_state) j⟩)
      rw [hw] at hmin
      exact XF.not_blt.mp hmin
    · exact absurd habs (by simp)

/-- Witness for `cv_winner_last_fold` on the concrete `sel8`, `tr8`. -/
theorem cv_winner_last_fold_witness :
    2 ≤ sel8.sequences.length
    ∧ ∃ XL, cvSelect sel8 tr8 = Except.ok (some modelB, XL) := by
  have hn : 2 ≤ sel8.sequences.length := by decide
  have hw : searchLoop (cvEval sel8 (tr8 sel8.random_state)) XF.bgt XF.negInf
      (rangeList sel8.min_n_components sel8.max_n_components)
      = (some (some modelB),
         cvAvg (cvFoldRun sel8 (tr8 sel8.random_state) 2).2.1) := rfl
  exact ⟨hn, (cv_winner_last_fold sel8 tr8 modelB _ hn hw).1⟩

/-- C9: `select` is a pure function of the selector state and the trainer's
behaviour at the construction-time seed: two trainers agreeing at
`self.random_state` produce identical selections for every strategy (so a
deterministic trainer makes a second identical `select()` call return the
same model and state count), because every fit performed during selection
forwards exactly `self.random_state`. -/
theorem select_seed_deterministic (sel : Selector) (f g : Trainer) (logf : ℕ → ℚ)
    (h : ∀ n X L, f sel.random_state n X L = g sel.random_state n X L) :
    constSelect sel f = constSelect sel g
    ∧ bicSelect sel f logf = bicSelect sel g logf
    ∧ dicSelect sel f = dicSelect sel g
    ∧ cvSelect sel f = cvSelect sel g := by
  have hf : f sel.random_state = g sel.random_state :=
    funext fun n => funext fun X => funext fun L => h n X L
  exact ⟨by unfold constSelect; rw [hf],
    by unfold bicSelect; rw [hf],
    by unfold dicSelect; rw [hf],
    by unfold cvSelect; rw [hf]⟩

/-- Witness for `select_seed_deterministic`: `trSeeded` answers like `trW`
at seed `14` (and fails at every other seed), and all four strategies agree
on the two trainers. -/
theorem select_seed_deterministic_witness :
    (∀ n X L, trSeeded selW.random_state n X L = trW selW.random_state n X L)
    ∧ constSelect selW trSeeded = constSelect selW trW
    ∧ bicSelect selW trSeeded logZ = bicSelect selW trW logZ
    ∧ dicSelect selW trSeeded = dicSelect selW trW
    ∧ cvSelect selW trSeeded = cvSelect selW trW := by
  have h : ∀ n X L, trSeeded selW.random_state n X L = trW selW.random_state n X L := by
    intro n X L
    rfl
  have hmain := select_seed_deterministic selW trSeeded trW logZ h
  exact ⟨h, hmain.1, hmain.2.1, hmain.2.2.1, hmain.2.2.2⟩

/-- C10: `SelectorBIC.select` and `SelectorDIC.select` leave the stored
training views `(self.X, self.lengths)` untouched, while `SelectorCV.select`
rebinds them fold by fold: after its search the view is the last fold's
training subset (the first `(n+1)/2` sequences), which differs from the
focal word's full training view; consequently the fallback `n_constant`
model is fitted on that last fold subset rather than on the full data. -/
theorem cv_rebinds_training_view (sel : Selector) (ftr : Trainer) (logf : ℕ → ℚ)
    (hne : rangeList sel.min_n_components sel.max_n_components ≠ [])
    (hn : 2 ≤ sel.sequences.length)
    (hcons : sel.lengths = sel.sequences.map List.length) :
    (bicSelectSt sel ftr logf).2 = (sel.X, sel.lengths)
    ∧ (dicSelectSt sel ftr).2 = (sel.X, sel.lengths)
    ∧ cvFinalXL sel (ftr sel.random_state) = cvLastTrain sel
    ∧ (cvLastTrain sel).2 ≠ sel.lengths
    ∧ ((∀ i ∈ rangeList sel.min_n_components sel.max_n_components,
          (cvFoldRun sel (ftr sel.random_state) i).2.1 = []) →
        cvSelect sel ftr
          = Except.ok (ftr sel.random_state sel.n_constant
              (cvLastTrain sel).1 (cvLastTrain sel).2, cvLastTrain sel)) := by
  have hfin : cvFinalXL sel (ftr sel.random_state) = cvLastTrain sel := by
    obtain ⟨i, hi⟩ : ∃ i,
        (rangeList sel.min_n_components sel.max_n_components).getLast? = some i := by
      cases hL : (rangeList sel.min_n_components sel.max_n_components).getLast? with
      | none => exact absurd (List.getLast?_eq_none_iff.mp hL) hne
      | some i => exact ⟨i, rfl⟩
    unfold cvFinalXL
    rw [hi]
    exact cvFoldRun_state sel (ftr sel.random_state) i
  have hlen : (cvLastTrain sel).2 ≠ sel.lengths := by
    intro heq
    have hlen1 : (cvLastTrain sel).2.length
        = min ((sel.sequences.length + 1) / 2) sel.sequences.length := by
      simp [cvLastTrain, combine_sequences, List.length_map, List.length_take,
        List.length_range]
    have hlen2 : sel.lengths.length = sel.sequences.length := by
      rw [hcons, List.length_map]
    have hs0 : (sel.sequences.length + 1) / 2 ≤ sel.sequences.length := by omega
    rw [heq, hlen2, min_eq_left hs0] at hlen1
    omega
  refine ⟨rfl, rfl, hfin, hlen, ?_⟩
  intro hc
  have hg : ¬(rangeList sel.min_n_components sel.max_n_components ≠ []
      ∧ sel.sequences.length < 2) := by
    rintro ⟨_, h2⟩
    omega
  unfold cvSelect
  rw [cvSelectCore_cases sel (ftr sel.random_state) hg,
    cvPick_none sel (ftr sel.random_state) hc, hfin]

/-- Witness for `cv_rebinds_training_view` on the concrete selector. -/
theorem cv_rebinds_training_view_witness :
    (rangeList selW.min_n_components selW.max_n_components ≠ []
      ∧ 2 ≤ selW.sequences.length
      ∧ selW.lengths = selW.sequences.map List.length)
    ∧ cvFinalXL selW (trFail selW.random_state) = cvLastTrain selW
    ∧ (cvLastTrain selW).2 ≠ selW.lengths := by
  have h1 : rangeList selW.min_n_components selW.max_n_components ≠ [] := by decide
  have h2 : 2 ≤ selW.sequences.length := by decide
  have h3 : selW.lengths = selW.sequences.map List.length := rfl
  have hmain := cv_rebinds_training_view selW trFail logZ h1 h2 h3
  exact ⟨⟨h1, h2, h3⟩, hmain.2.2.1, hmain.2.2.2.1⟩
